import Mathlib

/-!
Shallow embedding of the `streamlet_rs` repository — a small Streamlet-style
BFT replication core — covering `src/crypto.rs`, `src/blockchain.rs` and
`src/node.rs`, together with proofs settling the specification claims.

Modelling conventions:
* Machine integers (`u64`, `usize`) are modelled as `Nat`; all the arithmetic
  the code performs on them (vote counts bounded by the participant count,
  heights, epoch increments) stays far below any overflow boundary.
* Rust panics (`unwrap`, `expect`, `panic!`, failed `assert!`, out-of-bounds
  indexing) are modelled by returning `none` from the enclosing operation.
* The external hash and signature primitives (spec §2 treats them as correct,
  collision-resistant / unforgeable opaque services) are idealized:
  the SHA-256 digest of a serialized `Block` becomes an injective encoding of
  the block's fields, and an ed25519 signature is a record of the signing key
  and the exact message signed, so that verification succeeds precisely for
  data signed by the holder of the matching key.
-/

namespace Streamlet

/-! ## Crypto model (src/crypto.rs) -/

/-- Models `pub type PublicKey = EDPublicKey` from src/crypto.rs. -/
abbrev PublicKey : Type := Nat

/-- Models `pub type Keypair = EDKeypair`; only the public half is observable
through the operations the node performs. -/
structure Keypair where
  public : PublicKey
  deriving DecidableEq, Repr

/-- Models `Signed<T>` from src/crypto.rs: the carried data plus a signature
over its canonical serialization.  The unforgeable-signature idealization
records which public key produced the signature (`sig_key`) and which message
was signed (`sig_data`). -/
structure Signed (T : Type) where
  data : T
  sig_key : PublicKey
  sig_data : T
  deriving DecidableEq, Repr

/-- Models `Signed::new`: sign `to_sign` with `keypair`. -/
def Signed.new {T : Type} (to_sign : T) (keypair : Keypair) : Signed T :=
  ⟨to_sign, keypair.public, to_sign⟩

/-- Models `Signed::verify(pk).is_ok()`: the signature verifies under `pk` iff
it was produced with the key `pk` over exactly the carried data. -/
def Signed.verify {T : Type} [DecidableEq T] (s : Signed T) (pk : PublicKey) : Bool :=
  decide (s.sig_key = pk) && decide (s.sig_data = s.data)

/-- Models `Signed::get_data`. -/
def Signed.get_data {T : Type} (s : Signed T) : T := s.data

/-! ## Block and chain (src/blockchain.rs) -/

/-- Models `pub type EpochNum = u64`. -/
abbrev EpochNum : Type := Nat

/-- Models `pub type BlockHeight = usize`. -/
abbrev BlockHeight : Type := Nat

/-- Models `pub const INITIAL_EPOCH: u64 = 0`. -/
def INITIAL_EPOCH : EpochNum := 0

/-- The digest space for `HashOf<Block<T>>` (a 32-byte SHA-256 value in the
source), idealized as a flat injective encoding of a block's fields.  The
head of the list encodes the block's own payload, epoch, and whether it has a
parent digest; the tail is the parent digest's encoding. -/
abbrev BlockHash (T : Type) : Type := List (Option T × EpochNum × Bool)

/-- Models `Block<T>` from src/blockchain.rs. -/
structure Block (T : Type) where
  payload : Option T
  prev_hash : Option (BlockHash T)
  epoch : EpochNum
  deriving DecidableEq, Repr

/-- Models `Block::new`. -/
def Block.new {T : Type} (payload : T) (prev_hash : BlockHash T) (epoch : EpochNum) :
    Block T :=
  ⟨some payload, some prev_hash, epoch⟩

/-- Models `Block::genesis_block`: no payload, no previous hash, epoch 0. -/
def Block.genesis_block {T : Type} : Block T :=
  ⟨none, none, INITIAL_EPOCH⟩

/-- Models `Block::hash` / `HashOf::new(&block)`: the collision-resistant
digest of the block's canonical serialization, idealized injectively. -/
def Block.hash {T : Type} (b : Block T) : BlockHash T :=
  (b.payload, b.epoch, b.prev_hash.isSome) :: b.prev_hash.getD []

/-- Models `BlockChain<T>` from src/blockchain.rs. -/
structure BlockChain (T : Type) where
  blocks : List (Block T)
  deriving DecidableEq, Repr

/-- Models `BlockChain::new`: a fresh chain holding only the genesis block. -/
def BlockChain.new {T : Type} : BlockChain T :=
  ⟨[Block.genesis_block]⟩

/-- Models `BlockChain::get_latest_block_hash`, which indexes
`blocks[height - 1]`; indexing an empty vector panics, modelled as `none`. -/
def BlockChain.get_latest_block_hash {T : Type} (c : BlockChain T) : Option (BlockHash T) :=
  c.blocks.getLast?.map Block.hash

/-- Models `BlockChain::block_height`. -/
def BlockChain.block_height {T : Type} (c : BlockChain T) : BlockHeight :=
  c.blocks.length

/-- Models `BlockChain::add_block`: unwraps the block's `prev_hash` (panic on
`None`), compares it against the current tip digest, panics (`none`) on
mismatch, and pushes the block on match. -/
def BlockChain.add_block {T : Type} [DecidableEq T] (c : BlockChain T) (block : Block T) :
    Option (BlockChain T) :=
  match block.prev_hash with
  | none => none
  | some ph =>
    match c.get_latest_block_hash with
    | none => none
    | some tip => if ph = tip then some ⟨c.blocks ++ [block]⟩ else none

/-! ## Finite-map helpers

`Node` owns a `HashMap<HashOf<Block<T>>, (u64, HashSet<NodeID>)>` of votes and
a `BTreeMap<BlockHeight, Vec<BlockChain<T>>>` of chains.  Both are modelled as
association lists; `HashSet<NodeID>` is modelled as a duplicate-free list.
Only the operations the source actually performs are provided. -/

/-- Association-list lookup (first entry with the given key wins), modelling
`HashMap::get` / the read side of `BTreeMap`. -/
def mapLookup {K V : Type} [DecidableEq K] : List (K × V) → K → Option V
  | [], _ => none
  | (k', v) :: rest, k => if k = k' then some v else mapLookup rest k

/-- Association-list insert-or-replace (first entry with the key is replaced,
otherwise the binding is appended), modelling `HashMap` entry updates. -/
def mapInsert {K V : Type} [DecidableEq K] : List (K × V) → K → V → List (K × V)
  | [], k, v => [(k, v)]
  | (k', v') :: rest, k, v =>
    if k = k' then (k, v) :: rest else (k', v') :: mapInsert rest k v

/-- Ordered-map insert, modelling `BTreeMap::insert`: keeps the entry list
sorted by key in increasing order and replaces the value of an existing key. -/
def btInsert {V : Type} : List (BlockHeight × V) → BlockHeight → V → List (BlockHeight × V)
  | [], k, v => [(k, v)]
  | (k', v') :: rest, k, v =>
    if k < k' then (k, v) :: (k', v') :: rest
    else if k = k' then (k, v) :: rest
    else (k', v') :: btInsert rest k v

/-- Replace the value of the last entry of an association list, modelling an
in-place mutation through `BTreeMap::last_entry().get_mut()`. -/
def updateLastVal {K V : Type} : List (K × V) → V → List (K × V)
  | [], _ => []
  | [(k, _)], v => [(k, v)]
  | e :: e' :: rest, v => e :: updateLastVal (e' :: rest) v

/-! ## Node model (src/node.rs) -/

/-- Models `pub type NodeID = usize`. -/
abbrev NodeID : Type := Nat

/-- Models `Message<T>` from src/node.rs (the spec's Envelope). -/
structure Message (T : Type) where
  recipients : Finset NodeID
  vote : Signed (Block T)
  voter : NodeID
  deriving DecidableEq

/-- Models `NodeSetInfo`: the ordered registry of participant public keys. -/
structure NodeSetInfo where
  node_pub_keys : List PublicKey
  deriving DecidableEq, Repr

/-- Models `NodeSetInfo::get_public_key` (`Vec::get`, so out-of-range is
`None`). -/
def NodeSetInfo.get_public_key (info : NodeSetInfo) (id : NodeID) : Option PublicKey :=
  info.node_pub_keys.get? id

/-- Models `NodeSetInfo::num_nodes`. -/
def NodeSetInfo.num_nodes (info : NodeSetInfo) : Nat :=
  info.node_pub_keys.length

/-- Models `Node<T>` from src/node.rs.  The vote tally value for a digest is
the `u64` counter paired with the voter set. -/
structure Node (T : Type) where
  epoch_num : EpochNum
  node_id : NodeID
  node_set_info : NodeSetInfo
  chains : List (BlockHeight × List (BlockChain T))
  keypair : Keypair
  proposal_recieved : Bool
  votes : List (BlockHash T × (Nat × List NodeID))
  deriving DecidableEq

/-- Models `Node::new`: asserts the node's keypair matches its registry entry
(`expect` + `assert!`, modelled as `none` on failure) and starts at epoch 0
with the chain store `{1 ↦ [genesis chain]}` and an empty tally. -/
def Node.new {T : Type} (id : NodeID) (keypair : Keypair) (node_set_info : NodeSetInfo) :
    Option (Node T) :=
  match node_set_info.get_public_key id with
  | none => none
  | some pk =>
    if keypair.public = pk then
      some
        { epoch_num := INITIAL_EPOCH
          node_id := id
          node_set_info := node_set_info
          chains := [((BlockChain.new (T := T)).block_height, [BlockChain.new])]
          keypair := keypair
          proposal_recieved := false
          votes := [] }
    else none

/-- Models `Node::get_leader`: the constant leader function `leader(epoch) = 0`. -/
def Node.get_leader {T : Type} (_nd : Node T) : NodeID := 0

/-- Models `Node::is_leader`. -/
def Node.is_leader {T : Type} (nd : Node T) : Bool :=
  decide (nd.get_leader = nd.node_id)

/-- Models `Node::advance_epoch`: bumps the epoch and returns the new epoch
number alongside the updated state. -/
def Node.advance_epoch {T : Type} (nd : Node T) : Node T × EpochNum :=
  ({ nd with epoch_num := nd.epoch_num + 1 }, nd.epoch_num + 1)

/-- Models `Node::every_node_except_me`:
`(0..node_id).chain(node_id + 1..num_nodes)` collected into a `HashSet`. -/
def Node.every_node_except_me {T : Type} (nd : Node T) : Finset NodeID :=
  Finset.range nd.node_id ∪ Finset.Ico (nd.node_id + 1) nd.node_set_info.num_nodes

/-- Models `Node::peek_longest_chain`: unwraps `chains.last_key_value()` and
indexes `[0]` into the fork list; both panics are modelled as `none`. -/
def Node.peek_longest_chain {T : Type} (nd : Node T) : Option (BlockChain T) :=
  match nd.chains.getLast? with
  | none => none
  | some (_, blockchains) => blockchains.head?

/-- Models `Node::propose`: build a block on the tip of the preferred longest
chain at the current epoch, sign it, and address it to every other node. -/
def Node.propose {T : Type} [DecidableEq T] (nd : Node T) (payload : T) : Option (Message T) :=
  match nd.peek_longest_chain with
  | none => none
  | some longest_chain =>
    match longest_chain.get_latest_block_hash with
    | none => none
    | some prev_hash =>
      some
        { recipients := nd.every_node_except_me
          vote := Signed.new (Block.new payload prev_hash nd.epoch_num) nd.keypair
          voter := nd.node_id }

/-- Models `Node::validate_vote`: unwraps the registry lookup (panic — `none` —
for an out-of-range voter id) and verifies the signature. -/
def Node.validate_vote {T : Type} [DecidableEq T] (nd : Node T) (voter : NodeID)
    (vote : Signed (Block T)) : Option Bool :=
  match nd.node_set_info.get_public_key voter with
  | none => none
  | some pk => some (vote.verify pk)

/-- Models `Node::message_is_valid_proposal`: epoch match, voter is the
current leader, and the signature verifies. -/
def Node.message_is_valid_proposal {T : Type} [DecidableEq T] (nd : Node T) (msg : Message T) :
    Option Bool :=
  match nd.validate_vote msg.voter msg.vote with
  | none => none
  | some valid_vote =>
    some (decide (msg.vote.get_data.epoch = nd.epoch_num) &&
      (decide (msg.voter = nd.get_leader) && valid_vote))

/-- The quorum test used to gate block appending in `Node::handle_message`:
`(votes.0 as usize) > (2 * n) / 3 + 1` in exact (floor-division) integer
arithmetic. -/
def hasQuorum (count n : Nat) : Bool :=
  decide (count > 2 * n / 3 + 1)

/-- The index-scanning loop of `Node::try_append_block`: enumerate the forks,
computing each tip digest (`get_latest_block_hash` panics — `none` — on an
empty chain) and remember the position of the **last** fork whose tip matches
the target digest. -/
def scanTip {T : Type} [DecidableEq T] (hash : BlockHash T) :
    List (BlockChain T) → Nat → Option Nat → Option (Option Nat)
  | [], _, idx => some idx
  | chain :: rest, pos, idx =>
    match chain.get_latest_block_hash with
    | none => none
    | some chain_hash =>
      scanTip hash rest (pos + 1) (if chain_hash = hash then some pos else idx)

/-- Models `Node::try_append_block`: unwrap the new block's parent digest and
the store's greatest-height entry, look for a fork at that height whose tip
matches, and if one is found remove it, append the block to it, and record the
result at its new height (`BTreeMap::insert`, replacing any existing value at
that key).  If no fork matches, the store is left unchanged. -/
def Node.try_append_block {T : Type} [DecidableEq T] (nd : Node T) (new_block : Block T) :
    Option (Node T) :=
  match new_block.prev_hash with
  | none => none
  | some hash =>
    match nd.chains.getLast? with
    | none => none
    | some (_, blockchains) =>
      match scanTip hash blockchains 0 none with
      | none => none
      | some none => some nd
      | some (some idx) =>
        match blockchains[idx]? with
        | none => none
        | some chain =>
          match chain.add_block new_block with
          | none => none
          | some chain' =>
            some { nd with
              chains := btInsert
                (updateLastVal nd.chains (blockchains.eraseIdx idx))
                chain'.block_height [chain'] }

/-- Models `Node::handle_message`, the core transition function: validate the
vote, record it in the tally, attempt an append on crossing quorum, echo the
vote, and additionally cast this node's own vote when the message is a valid
leader proposal.  Returns the updated node and the outbound messages, or
`none` when the source panics. -/
def Node.handle_message {T : Type} [DecidableEq T] (nd : Node T) (msg : Message T) :
    Option (Node T × List (Message T)) :=
  let n := nd.node_set_info.num_nodes
  match nd.validate_vote msg.voter msg.vote with
  | none => none
  | some false => some (nd, [])
  | some true =>
    let new_block := msg.vote.get_data
    let hash := new_block.hash
    let tally := (mapLookup nd.votes hash).getD (0, [])
    if msg.voter ∈ tally.2 then
      some ({ nd with votes := mapInsert nd.votes hash (tally.1, tally.2) }, [])
    else
      let nd1 : Node T :=
        { nd with votes := mapInsert nd.votes hash (tally.1 + 1, msg.voter :: tally.2) }
      let step := if hasQuorum (tally.1 + 1) n then nd1.try_append_block new_block else some nd1
      match step with
      | none => none
      | some nd2 =>
        let echo_message : Message T :=
          { recipients := nd2.every_node_except_me, vote := msg.vote, voter := msg.voter }
        match nd2.message_is_valid_proposal msg with
        | none => none
        | some false => some (nd2, [echo_message])
        | some true =>
          let nd3 : Node T := { nd2 with proposal_recieved := true }
          let vote_message : Message T :=
            { recipients := nd3.every_node_except_me
              vote := Signed.new new_block nd3.keypair
              voter := nd3.node_id }
          some (nd3, [echo_message, vote_message])

/-! ## Invariants, reachability, and decomposition helpers -/

/-- Sortedness of a `BTreeMap`-modelling association list: keys strictly
increase along the entry list. -/
def SortedKeys {V : Type} (l : List (BlockHeight × V)) : Prop :=
  l.Pairwise (fun a b => a.1 < b.1)

instance {V : Type} (l : List (BlockHeight × V)) : Decidable (SortedKeys l) :=
  inferInstanceAs (Decidable (l.Pairwise _))

/-- `true` iff the chain store is non-empty and the fork list stored at the
greatest height is non-empty. -/
def lastNonempty {T : Type} (chains : List (BlockHeight × List (BlockChain T))) : Bool :=
  match chains.getLast? with
  | none => false
  | some e => !e.2.isEmpty

/-- Invariant of the node's `BTreeMap` chain store: entries are sorted by
height, every chain recorded under a height key has exactly that height
(which is at least 1, so every stored chain is non-empty), and the fork list
at the greatest height is non-empty. -/
def StoreInv {T : Type} (chains : List (BlockHeight × List (BlockChain T))) : Prop :=
  SortedKeys chains ∧
  (∀ e ∈ chains, 1 ≤ e.1 ∧ ∀ c ∈ e.2, c.block_height = e.1) ∧
  lastNonempty chains = true

instance {T : Type} (chains : List (BlockHeight × List (BlockChain T))) :
    Decidable (StoreInv chains) := by
  unfold StoreInv
  exact instDecidableAnd

/-- The chain store records chain `c` among the forks at height `k`. -/
def storedAt {T : Type} (chains : List (BlockHeight × List (BlockChain T)))
    (k : BlockHeight) (c : BlockChain T) : Prop :=
  ∃ cs, mapLookup chains k = some cs ∧ c ∈ cs

/-- Invariant of the vote tally: the voter set of every digest is
duplicate-free and the stored counter equals its cardinality. -/
def tallyInv {T : Type} [DecidableEq T] (votes : List (BlockHash T × (Nat × List NodeID))) :
    Prop :=
  ∀ k p, mapLookup votes k = some p → p.2.Nodup ∧ p.1 = p.2.length

/-- Invariant of every node state arising in a run: well-formed chain store,
well-formed tally, and the node's own identity inside the registry. -/
def NodeInv {T : Type} [DecidableEq T] (nd : Node T) : Prop :=
  StoreInv nd.chains ∧ tallyInv nd.votes ∧ nd.node_id < nd.node_set_info.num_nodes

/-- The state after recording a first-time vote for the digest of the block
carried by `msg` (the `or_insert` / `HashSet::insert` / counter-increment
steps of `handle_message`). -/
def recordedNode {T : Type} [DecidableEq T] (nd : Node T) (msg : Message T) : Node T :=
  { nd with
    votes := mapInsert nd.votes msg.vote.get_data.hash
      (((mapLookup nd.votes msg.vote.get_data.hash).getD (0, [])).1 + 1,
        msg.voter :: ((mapLookup nd.votes msg.vote.get_data.hash).getD (0, [])).2) }

/-- The record-then-maybe-append stage of `handle_message` on a first-time
vote: the tally update followed, when the new count crosses quorum, by the
append attempt. -/
def freshStep {T : Type} [DecidableEq T] (nd : Node T) (msg : Message T) : Option (Node T) :=
  if hasQuorum (((mapLookup nd.votes msg.vote.get_data.hash).getD (0, [])).1 + 1)
      nd.node_set_info.num_nodes
  then (recordedNode nd msg).try_append_block msg.vote.get_data
  else some (recordedNode nd msg)

/-- The echo envelope `handle_message` builds from the state `nd2` reached
after the tally/append stage: the received vote, attributed to the original
voter, addressed to every other node. -/
def echoOf {T : Type} (nd2 : Node T) (msg : Message T) : Message T :=
  ⟨nd2.every_node_except_me, msg.vote, msg.voter⟩

/-- The node's own vote envelope for a valid proposal: the carried block
re-signed with this node's keypair, attributed to this node. -/
def selfVoteOf {T : Type} [DecidableEq T] (nd2 : Node T) (msg : Message T) : Message T :=
  ⟨nd2.every_node_except_me, Signed.new msg.vote.get_data nd2.keypair, nd2.node_id⟩

/-- The node states reachable from construction by epoch advancement and
message handling (`propose` does not change state). -/
inductive Reachable {T : Type} [DecidableEq T] : Node T → Prop where
  | of_new : ∀ {id : NodeID} {kp : Keypair} {info : NodeSetInfo} {nd : Node T},
      Node.new id kp info = some nd → Reachable nd
  | of_advance : ∀ {nd : Node T}, Reachable nd → Reachable nd.advance_epoch.1
  | of_handle : ∀ {nd nd' : Node T} {msg : Message T} {out : List (Message T)},
      Reachable nd → nd.handle_message msg = some (nd', out) → Reachable nd'

/-! ## A concrete two-node scenario

Node 0 (keypair `kpA`) is the epoch-0 leader and proposes the block `blkP`
(payload 7 on top of genesis); node 1 (keypair `kpB`) receives the
proposal. -/

/-- Keypair of node 0 in the concrete scenario. -/
def kpA : Keypair := ⟨100⟩

/-- Keypair of node 1 in the concrete scenario. -/
def kpB : Keypair := ⟨101⟩

/-- The membership registry of the two-node scenario. -/
def info2 : NodeSetInfo := ⟨[100, 101]⟩

/-- The block node 0 proposes at epoch 0, extending genesis with payload 7. -/
def blkP : Block Nat := Block.new 7 (Block.genesis_block (T := Nat)).hash 0

/-- Node 0's proposal envelope carrying `blkP`. -/
def msgP : Message Nat := ⟨{1}, Signed.new blkP kpA, 0⟩

/-- Node 1 freshly constructed. -/
def nd1 : Node Nat :=
  { epoch_num := 0, node_id := 1, node_set_info := info2,
    chains := [(1, [BlockChain.new])], keypair := kpB,
    proposal_recieved := false, votes := [] }

/-- Node 1's state after handling `msgP` once. -/
def nd1' : Node Nat :=
  { nd1 with votes := [(blkP.hash, (1, [0]))], proposal_recieved := true }

/-- The echo envelope node 1 emits on first handling `msgP`. -/
def echoP : Message Nat := ⟨{0}, Signed.new blkP kpA, 0⟩

/-- Node 1's own vote envelope emitted on first handling `msgP`. -/
def voteP : Message Nat := ⟨{0}, Signed.new blkP kpB, 1⟩

/-- Node 1's state after a direct successful `try_append_block` of `blkP`. -/
def nd1app : Node Nat :=
  { nd1 with chains := [(1, []), (2, [⟨[Block.genesis_block, blkP]⟩])] }

/-- An envelope whose claimed voter identity 5 is out of range of the
two-entry registry. -/
def msgOut : Message Nat := ⟨{1}, Signed.new blkP kpA, 5⟩

/-- An envelope attributed to voter 0 but signed with node 1's key, so its
signature fails verification under voter 0's registered key. -/
def msgBad : Message Nat := ⟨{1}, Signed.new blkP kpB, 0⟩

/-! ## Supporting lemmas -/

/-- Sanity check for the digest idealization: the modelled digest is an
injective function of the block, matching the collision-resistance assumption
the spec places on the external hash primitive. -/
theorem Block.hash_injective {T : Type} (a b : Block T) (h : a.hash = b.hash) : a = b := by
  obtain ⟨pa, ha, ea⟩ := a
  obtain ⟨pb, hb, eb⟩ := b
  cases ha <;> cases hb <;> simp_all [Block.hash]

theorem getLast?_mem {α : Type _} {l : List α} {a : α} (h : l.getLast? = some a) : a ∈ l := by
  have h2 := List.dropLast_append_getLast? a h
  rw [← h2]
  exact List.mem_append_right _ (by simp)

theorem mapLookup_mapInsert {K V : Type} [DecidableEq K] (m : List (K × V)) (k k' : K) (v : V) :
    mapLookup (mapInsert m k v) k' = if k' = k then some v else mapLookup m k' := by
  induction m with
  | nil => by_cases h : k' = k <;> simp [mapInsert, mapLookup, h]
  | cons e rest ih =>
    obtain ⟨k₀, v₀⟩ := e
    by_cases h1 : k = k₀
    · subst h1
      by_cases h2 : k' = k <;> simp [mapInsert, mapLookup, h2]
    · by_cases h2 : k' = k₀
      · subst h2
        have h3 : ¬ k' = k := fun hc => h1 (hc ▸ rfl)
        simp [mapInsert, mapLookup, h1, h3]
      · simp [mapInsert, mapLookup, h1, h2, ih]

theorem mapInsert_lookup_self {K V : Type} [DecidableEq K] {m : List (K × V)} {k : K} {v : V}
    (h : mapLookup m k = some v) : mapInsert m k v = m := by
  induction m with
  | nil => exact Option.noConfusion h
  | cons e rest ih =>
    obtain ⟨k₀, v₀⟩ := e
    by_cases h1 : k = k₀
    · subst h1
      simp [mapLookup] at h
      simp [mapInsert, h]
    · simp [mapLookup, h1] at h
      simp [mapInsert, h1, ih h]

theorem mapLookup_mem {K V : Type} [DecidableEq K] {m : List (K × V)} {k : K} {v : V}
    (h : mapLookup m k = some v) : (k, v) ∈ m := by
  induction m with
  | nil => exact Option.noConfusion h
  | cons e rest ih =>
    obtain ⟨k₀, v₀⟩ := e
    by_cases h1 : k = k₀
    · subst h1
      simp [mapLookup] at h
      simp [h]
    · simp [mapLookup, h1] at h
      simp [ih h]

theorem mapLookup_append_of_some {K V : Type} [DecidableEq K] {l : List (K × V)} {k : K} {v : V}
    (l₂ : List (K × V)) (h : mapLookup l k = some v) : mapLookup (l ++ l₂) k = some v := by
  induction l with
  | nil => exact Option.noConfusion h
  | cons e rest ih =>
    obtain ⟨k₀, v₀⟩ := e
    by_cases h1 : k = k₀
    · subst h1
      simp_all [mapLookup]
    · simp [mapLookup, h1] at h ⊢
      exact ih h

theorem mapLookup_append_of_none {K V : Type} [DecidableEq K] {l : List (K × V)} {k : K}
    (l₂ : List (K × V)) (h : mapLookup l k = none) : mapLookup (l ++ l₂) k = mapLookup l₂ k := by
  induction l with
  | nil => simp
  | cons e rest ih =>
    obtain ⟨k₀, v₀⟩ := e
    by_cases h1 : k = k₀
    · simp [mapLookup, h1] at h
    · simp [mapLookup, h1] at h ⊢
      exact ih h

theorem mapLookup_none_of_keys {K V : Type} [DecidableEq K] {l : List (K × V)} {k : K}
    (h : ∀ e ∈ l, e.1 ≠ k) : mapLookup l k = none := by
  induction l with
  | nil => rfl
  | cons e rest ih =>
    obtain ⟨k₀, v₀⟩ := e
    have hk : ¬ k = k₀ := fun hc => (h (k₀, v₀) (by simp)) hc.symm
    simp [mapLookup, hk]
    exact ih fun e he => h e (by simp [he])

theorem btInsert_of_forall_lt {V : Type} {l : List (BlockHeight × V)} {k : BlockHeight} (v : V)
    (h : ∀ e ∈ l, e.1 < k) : btInsert l k v = l ++ [(k, v)] := by
  induction l with
  | nil => rfl
  | cons e rest ih =>
    obtain ⟨k₀, v₀⟩ := e
    have hk : k₀ < k := by simpa using h (k₀, v₀) (by simp)
    have h1 : ¬ k < k₀ := lt_asymm hk
    have h2 : ¬ k = k₀ := ne_of_gt hk
    simp [btInsert, h1, h2]
    exact ih fun e he => h e (by simp [he])

theorem updateLastVal_eq {K V : Type} {l : List (K × V)} {e : K × V} (v : V)
    (h : l.getLast? = some e) : updateLastVal l v = l.dropLast ++ [(e.1, v)] := by
  induction l with
  | nil => exact Option.noConfusion h
  | cons a rest ih =>
    obtain ⟨k₀, v₀⟩ := a
    cases rest with
    | nil =>
      simp at h
      subst h
      rfl
    | cons a' rest' =>
      rw [List.getLast?_cons_cons] at h
      have hd : ((k₀, v₀) :: a' :: rest').dropLast = (k₀, v₀) :: (a' :: rest').dropLast := rfl
      rw [hd]
      show (k₀, v₀) :: updateLastVal (a' :: rest') v = _
      rw [ih h]
      rfl

theorem sortedKeys_le_last {V : Type} {l : List (BlockHeight × V)} {e : BlockHeight × V}
    (hs : SortedKeys l) (h : l.getLast? = some e) : ∀ x ∈ l, x.1 ≤ e.1 := by
  induction l with
  | nil => intro x hx; cases hx
  | cons a rest ih =>
    rcases List.pairwise_cons.mp hs with ⟨ha, hrest⟩
    cases rest with
    | nil =>
      simp at h
      subst h
      intro x hx
      simp at hx
      simp [hx]
    | cons a' rest' =>
      rw [List.getLast?_cons_cons] at h
      intro x hx
      rcases List.mem_cons.mp hx with hx | hx
      · subst hx
        exact le_of_lt (ha e (getLast?_mem h))
      · exact ih hrest h x hx

theorem mem_updateLastVal {K V : Type} {l : List (K × V)} {v : V} {x : K × V}
    (h : x ∈ updateLastVal l v) : ∃ y ∈ l, x.1 = y.1 := by
  cases hl : l.getLast? with
  | none =>
    rw [List.getLast?_eq_none_iff] at hl
    subst hl
    cases h
  | some e =>
    rw [updateLastVal_eq v hl] at h
    rcases List.mem_append.mp h with h | h
    · exact ⟨x, List.mem_of_mem_dropLast h, rfl⟩
    · simp at h
      subst h
      exact ⟨e, getLast?_mem hl, rfl⟩

theorem sortedKeys_updateLastVal {V : Type} {l : List (BlockHeight × V)} (v : V)
    (hs : SortedKeys l) : SortedKeys (updateLastVal l v) := by
  cases hl : l.getLast? with
  | none =>
    rw [List.getLast?_eq_none_iff] at hl
    subst hl
    exact List.Pairwise.nil
  | some e =>
    rw [updateLastVal_eq v hl]
    have hdecomp : l.dropLast ++ [e] = l := List.dropLast_append_getLast? e hl
    have hsplit := List.pairwise_append.mp (hdecomp ▸ hs)
    exact List.pairwise_append.mpr
      ⟨hsplit.1, List.pairwise_singleton _ _,
        fun a ha b hb => by
          simp at hb
          subst hb
          exact hsplit.2.2 a ha e (by simp)⟩

theorem updateLastVal_getLast? {K V : Type} {l : List (K × V)} {e : K × V} (v : V)
    (h : l.getLast? = some e) : (updateLastVal l v).getLast? = some (e.1, v) := by
  rw [updateLastVal_eq v h]
  exact List.getLast?_concat _

theorem mem_getElem? {α : Type _} {l : List α} {i : Nat} {a : α} (h : l[i]? = some a) :
    a ∈ l := by
  rw [List.getElem?_eq_some] at h
  obtain ⟨hi, rfl⟩ := h
  exact l.getElem_mem hi

theorem mem_eraseIdx_or_eq {α : Type _} {l : List α} {i : Nat} {c a : α}
    (hg : l[i]? = some c) (ha : a ∈ l) : a ∈ l.eraseIdx i ∨ a = c := by
  induction l generalizing i with
  | nil => cases ha
  | cons x xs ih =>
    cases i with
    | zero =>
      rw [List.getElem?_cons_zero] at hg
      have hcx : x = c := Option.some.inj hg
      rcases List.mem_cons.mp ha with h | h
      · exact Or.inr (h.trans hcx)
      · exact Or.inl (by simpa [List.eraseIdx] using h)
    | succ n =>
      rw [List.getElem?_cons_succ] at hg
      have herase : (x :: xs).eraseIdx (n + 1) = x :: xs.eraseIdx n := rfl
      rw [herase]
      rcases List.mem_cons.mp ha with h | h
      · exact Or.inl (by simp [h])
      · rcases ih hg h with h2 | h2
        · exact Or.inl (by simp [h2])
        · exact Or.inr h2

theorem add_block_some {T : Type} [DecidableEq T] {c : BlockChain T} {b : Block T}
    {c' : BlockChain T} (h : c.add_block b = some c') : c'.blocks = c.blocks ++ [b] := by
  cases hprev : b.prev_hash with
  | none => simp [BlockChain.add_block, hprev] at h
  | some ph =>
    cases htip : c.get_latest_block_hash with
    | none => simp [BlockChain.add_block, hprev, htip] at h
    | some tip =>
      by_cases heq : ph = tip
      · simp [BlockChain.add_block, hprev, htip, heq] at h
        rw [← h]
      · simp [BlockChain.add_block, hprev, htip, heq] at h

/-- Case analysis of `try_append_block`: either no fork matched and the state
is unchanged, or the matching fork at the greatest height was removed, the
block appended to it, and the result recorded at its new height. -/
theorem try_append_block_cases {T : Type} [DecidableEq T] {nd : Node T} {b : Block T}
    {nd' : Node T} (h : nd.try_append_block b = some nd') :
    nd' = nd ∨
    ∃ h₀ cs i chain chain',
      nd.chains.getLast? = some (h₀, cs) ∧
      cs[i]? = some chain ∧
      chain.add_block b = some chain' ∧
      nd' = { nd with
        chains := btInsert (updateLastVal nd.chains (cs.eraseIdx i))
          chain'.block_height [chain'] } := by
  cases hprev : b.prev_hash with
  | none => simp [Node.try_append_block, hprev] at h
  | some hash =>
    cases hlast : nd.chains.getLast? with
    | none => simp [Node.try_append_block, hprev, hlast] at h
    | some e =>
      obtain ⟨h₀, cs⟩ := e
      cases hscan : scanTip hash cs 0 none with
      | none => simp [Node.try_append_block, hprev, hlast, hscan] at h
      | some idxO =>
        cases idxO with
        | none =>
          simp only [Node.try_append_block, hprev, hlast, hscan] at h
          exact Or.inl (Option.some.inj h).symm
        | some idx =>
          cases hget : cs[idx]? with
          | none => simp [Node.try_append_block, hprev, hlast, hscan, hget] at h
          | some chain =>
            cases hadd : chain.add_block b with
            | none => simp [Node.try_append_block, hprev, hlast, hscan, hget, hadd] at h
            | some chain' =>
              simp only [Node.try_append_block, hprev, hlast, hscan, hget, hadd] at h
              exact Or.inr ⟨h₀, cs, idx, chain, chain', rfl, hget, hadd,
                (Option.some.inj h).symm⟩

/-- `try_append_block` only touches the chain store. -/
theorem try_append_block_fields {T : Type} [DecidableEq T] {nd : Node T} {b : Block T}
    {nd' : Node T} (h : nd.try_append_block b = some nd') :
    nd'.epoch_num = nd.epoch_num ∧ nd'.node_id = nd.node_id ∧
    nd'.node_set_info = nd.node_set_info ∧ nd'.keypair = nd.keypair ∧
    nd'.votes = nd.votes ∧ nd'.proposal_recieved = nd.proposal_recieved := by
  rcases try_append_block_cases h with rfl | ⟨h₀, cs, i, chain, chain', _, _, _, rfl⟩ <;>
    exact ⟨rfl, rfl, rfl, rfl, rfl, rfl⟩

theorem try_append_block_storeInv {T : Type} [DecidableEq T] {nd : Node T} {b : Block T}
    {nd' : Node T} (hinv : StoreInv nd.chains) (h : nd.try_append_block b = some nd') :
    StoreInv nd'.chains := by
  rcases try_append_block_cases h with rfl | ⟨h₀, cs, i, chain, chain', hlast, hget, hadd, rfl⟩
  · exact hinv
  obtain ⟨hsorted, hkeys, _⟩ := hinv
  have hmem_entry : (h₀, cs) ∈ nd.chains := getLast?_mem hlast
  have hkey := hkeys _ hmem_entry
  have hchain_mem : chain ∈ cs := mem_getElem? hget
  have hchain_h : chain.block_height = h₀ := hkey.2 chain hchain_mem
  have hblocks : chain'.blocks = chain.blocks ++ [b] := add_block_some hadd
  have hchain'_h : chain'.block_height = h₀ + 1 := by
    simp only [BlockChain.block_height] at hchain_h ⊢
    rw [hblocks, List.length_append, hchain_h]
    rfl
  have hmid_keys : ∀ x ∈ updateLastVal nd.chains (cs.eraseIdx i), x.1 ≤ h₀ := by
    intro x hx
    obtain ⟨y, hy, hxy⟩ := mem_updateLastVal hx
    rw [hxy]
    exact sortedKeys_le_last hsorted hlast y hy
  have hbt : btInsert (updateLastVal nd.chains (cs.eraseIdx i)) chain'.block_height [chain'] =
      updateLastVal nd.chains (cs.eraseIdx i) ++ [(chain'.block_height, [chain'])] := by
    apply btInsert_of_forall_lt
    intro e he
    rw [hchain'_h]
    exact Nat.lt_succ_of_le (hmid_keys e he)
  show StoreInv (btInsert (updateLastVal nd.chains (cs.eraseIdx i))
    chain'.block_height [chain'])
  rw [hbt]
  refine ⟨?_, ?_, ?_⟩
  · exact List.pairwise_append.mpr
      ⟨sortedKeys_updateLastVal _ hsorted, List.pairwise_singleton _ _,
        fun a ha b hb => by
          simp at hb
          rw [hb, hchain'_h]
          exact Nat.lt_succ_of_le (hmid_keys a ha)⟩
  · intro e he
    rcases List.mem_append.mp he with he | he
    · rw [updateLastVal_eq _ hlast] at he
      rcases List.mem_append.mp he with he | he
      · exact hkeys e (List.mem_of_mem_dropLast he)
      · simp at he
        rw [he]
        exact ⟨hkey.1, fun c hc => hkey.2 c (List.mem_of_mem_eraseIdx hc)⟩
    · simp at he
      rw [he, hchain'_h]
      refine ⟨Nat.le_add_left 1 h₀, fun c hc => ?_⟩
      simp at hc
      rw [hc, hchain'_h]
  · unfold lastNonempty
    rw [List.getLast?_concat]
    simp

/-- An out-of-range voter id makes `validate_vote`'s registry `unwrap` panic
inside `handle_message`. -/
theorem handle_message_unknown_voter {T : Type} [DecidableEq T] {nd : Node T} {msg : Message T}
    (hpk : nd.node_set_info.get_public_key msg.voter = none) :
    nd.handle_message msg = none := by
  have hval : nd.validate_vote msg.voter msg.vote = none := by
    simp [Node.validate_vote, hpk]
  simp [Node.handle_message, hval]

/-- An in-range voter whose signature fails verification is discarded
silently: no outputs, no state change. -/
theorem handle_message_invalid_sig {T : Type} [DecidableEq T] {nd : Node T} {msg : Message T}
    {pk : PublicKey} (hpk : nd.node_set_info.get_public_key msg.voter = some pk)
    (hver : msg.vote.verify pk = false) :
    nd.handle_message msg = some (nd, []) := by
  have hval : nd.validate_vote msg.voter msg.vote = some false := by
    simp [Node.validate_vote, hpk, hver]
  simp [Node.handle_message, hval]

/-- A verified vote already recorded for this voter and digest: the tally is
rewritten with its current value and nothing else happens. -/
theorem handle_message_dup {T : Type} [DecidableEq T] {nd : Node T} {msg : Message T}
    {pk : PublicKey} (hpk : nd.node_set_info.get_public_key msg.voter = some pk)
    (hver : msg.vote.verify pk = true)
    (hdup : msg.voter ∈ ((mapLookup nd.votes msg.vote.get_data.hash).getD (0, [])).2) :
    nd.handle_message msg =
      (let tally := (mapLookup nd.votes msg.vote.get_data.hash).getD (0, [])
      some ({ nd with votes := mapInsert nd.votes msg.vote.get_data.hash tally }, [])) := by
  have hval : nd.validate_vote msg.voter msg.vote = some true := by
    simp [Node.validate_vote, hpk, hver]
  simp [Node.handle_message, hval, hdup]

/-- A verified, first-time vote: `handle_message` reduces to the
record-then-maybe-append-then-emit tail of the algorithm. -/
theorem handle_message_fresh {T : Type} [DecidableEq T] {nd : Node T} {msg : Message T}
    {pk : PublicKey} (hpk : nd.node_set_info.get_public_key msg.voter = some pk)
    (hver : msg.vote.verify pk = true)
    (hfresh : msg.voter ∉ ((mapLookup nd.votes msg.vote.get_data.hash).getD (0, [])).2) :
    nd.handle_message msg =
      (match freshStep nd msg with
      | none => none
      | some nd2 =>
        match nd2.message_is_valid_proposal msg with
        | none => none
        | some false => some (nd2, [echoOf nd2 msg])
        | some true =>
          some ({ nd2 with proposal_recieved := true }, [echoOf nd2 msg, selfVoteOf nd2 msg])) := by
  have hval : nd.validate_vote msg.voter msg.vote = some true := by
    simp [Node.validate_vote, hpk, hver]
  simp only [Node.handle_message, hval, hfresh, if_false, if_neg, freshStep, recordedNode,
    echoOf, selfVoteOf]
  rfl

/-- `message_is_valid_proposal` only reads the epoch and the registry. -/
theorem message_is_valid_proposal_congr {T : Type} [DecidableEq T] {nd nd2 : Node T}
    (msg : Message T) (he : nd2.epoch_num = nd.epoch_num)
    (hi : nd2.node_set_info = nd.node_set_info) :
    nd2.message_is_valid_proposal msg = nd.message_is_valid_proposal msg := by
  simp [Node.message_is_valid_proposal, Node.validate_vote, Node.get_leader, he, hi]

/-- `every_node_except_me` only reads the node id and the registry. -/
theorem every_node_except_me_congr {T : Type} {nd nd2 : Node T}
    (hid : nd2.node_id = nd.node_id) (hi : nd2.node_set_info = nd.node_set_info) :
    nd2.every_node_except_me = nd.every_node_except_me := by
  simp [Node.every_node_except_me, hid, hi]

theorem tallyInv_insert {T : Type} [DecidableEq T] {votes : List (BlockHash T × (Nat × List NodeID))}
    (hinv : tallyInv votes) {k : BlockHash T} {p : Nat × List NodeID}
    (hp : p.2.Nodup ∧ p.1 = p.2.length) : tallyInv (mapInsert votes k p) := by
  intro k' p' h
  rw [mapLookup_mapInsert] at h
  by_cases hk : k' = k
  · rw [if_pos hk] at h
    exact (Option.some.inj h) ▸ hp
  · rw [if_neg hk] at h
    exact hinv k' p' h

theorem tally_getD_wf {T : Type} [DecidableEq T]
    {votes : List (BlockHash T × (Nat × List NodeID))} (hinv : tallyInv votes) (k : BlockHash T) :
    ((mapLookup votes k).getD (0, [])).2.Nodup ∧
      ((mapLookup votes k).getD (0, [])).1 = ((mapLookup votes k).getD (0, [])).2.length := by
  cases h : mapLookup votes k with
  | none => simp
  | some p => simpa using hinv k p h

/-- `handle_message` preserves the node invariant. -/
theorem handle_message_nodeInv {T : Type} [DecidableEq T] {nd nd' : Node T} {msg : Message T}
    {out : List (Message T)} (hinv : NodeInv nd) (h : nd.handle_message msg = some (nd', out)) :
    NodeInv nd' := by
  obtain ⟨hstore, htally, hid⟩ := hinv
  cases hpk : nd.node_set_info.get_public_key msg.voter with
  | none =>
    rw [handle_message_unknown_voter hpk] at h
    exact Option.noConfusion h
  | some pk =>
    cases hver : msg.vote.verify pk with
    | false =>
      rw [handle_message_invalid_sig hpk hver] at h
      obtain ⟨rfl, rfl⟩ := Prod.mk.injEq .. ▸ Option.some.inj h
      exact ⟨hstore, htally, hid⟩
    | true =>
      by_cases hdup : msg.voter ∈ ((mapLookup nd.votes msg.vote.get_data.hash).getD (0, [])).2
      · rw [handle_message_dup hpk hver hdup] at h
        obtain ⟨hnd, _⟩ := Prod.mk.injEq .. ▸ Option.some.inj h
        rw [← hnd]
        exact ⟨hstore, tallyInv_insert htally (tally_getD_wf htally _), hid⟩
      · rw [handle_message_fresh hpk hver hdup] at h
        have hwf := tally_getD_wf htally (msg.vote.get_data.hash)
        have hinv1 : NodeInv (recordedNode nd msg) := by
          refine ⟨hstore, tallyInv_insert htally ⟨?_, ?_⟩, hid⟩
          · exact List.nodup_cons.mpr ⟨hdup, hwf.1⟩
          · simp [hwf.2]
        cases hstep : freshStep nd msg with
        | none =>
          rw [hstep] at h
          exact Option.noConfusion h
        | some nd2 =>
          have hinv2 : NodeInv nd2 := by
            unfold freshStep at hstep
            by_cases hq : hasQuorum
                (((mapLookup nd.votes msg.vote.get_data.hash).getD (0, [])).1 + 1)
                nd.node_set_info.num_nodes
            · rw [if_pos hq] at hstep
              obtain ⟨he, hi, hni, hk, hv, hp⟩ := try_append_block_fields hstep
              refine ⟨try_append_block_storeInv hinv1.1 hstep, ?_, ?_⟩
              · rw [hv]
                exact hinv1.2.1
              · rw [hi, hni]
                exact hid
            · rw [if_neg hq] at hstep
              exact (Option.some.inj hstep) ▸ hinv1
          rw [hstep] at h
          simp only [] at h
          cases hvalid : nd2.message_is_valid_proposal msg with
          | none =>
            rw [hvalid] at h
            exact Option.noConfusion h
          | some b =>
            cases b with
            | false =>
              rw [hvalid] at h
              simp only [] at h
              obtain ⟨hnd, _⟩ := Prod.mk.injEq .. ▸ Option.some.inj h
              rw [← hnd]
              exact hinv2
            | true =>
              rw [hvalid] at h
              simp only [] at h
              obtain ⟨hnd, _⟩ := Prod.mk.injEq .. ▸ Option.some.inj h
              rw [← hnd]
              exact ⟨hinv2.1, hinv2.2.1, hinv2.2.2⟩

/-- The initial node state satisfies the invariant. -/
theorem node_new_nodeInv {T : Type} [DecidableEq T] {id : NodeID} {kp : Keypair}
    {info : NodeSetInfo} {nd : Node T} (h : Node.new id kp info = some nd) : NodeInv nd := by
  cases hpk : info.get_public_key id with
  | none => simp [Node.new, hpk] at h
  | some pk =>
    by_cases hkp : kp.public = pk
    · simp only [Node.new, hpk, hkp, if_pos] at h
      have hid : id < info.num_nodes := by
        have := List.get?_eq_some.mp hpk
        exact this.1
      rw [← Option.some.inj h]
      refine ⟨⟨?_, ?_, ?_⟩, ?_, hid⟩
      · exact List.pairwise_singleton _ _
      · intro e he
        simp at he
        rw [he]
        exact ⟨le_refl 1, fun c hc => by simp at hc; rw [hc]⟩
      · rfl
      · intro k p hp
        exact Option.noConfusion hp
    · simp [Node.new, hpk, hkp] at h

/-- Every reachable node state satisfies the node invariant. -/
theorem reachable_nodeInv {T : Type} [DecidableEq T] {nd : Node T} (h : Reachable nd) :
    NodeInv nd := by
  induction h with
  | of_new hnew => exact node_new_nodeInv hnew
  | of_advance _ ih => exact ⟨ih.1, ih.2.1, ih.2.2⟩
  | of_handle _ hmsg ih => exact handle_message_nodeInv ih hmsg

/-- In a sorted store, membership of an entry determines the lookup. -/
theorem sortedKeys_lookup_mem {V : Type} {l : List (BlockHeight × V)} {k : BlockHeight} {v : V}
    (hs : SortedKeys l) (hmem : (k, v) ∈ l) : mapLookup l k = some v := by
  induction l with
  | nil => cases hmem
  | cons e rest ih =>
    obtain ⟨k₀, v₀⟩ := e
    rcases List.pairwise_cons.mp hs with ⟨he, hrest⟩
    rcases List.mem_cons.mp hmem with h | h
    · obtain ⟨rfl, rfl⟩ := Prod.mk.injEq .. ▸ h
      simp [mapLookup]
    · have hlt : k₀ < k := by simpa using he (k, v) h
      have hne : ¬ k = k₀ := ne_of_gt hlt
      simp only [mapLookup, if_neg hne]
      exact ih hrest h

/-- Lookup after an in-place update of the last entry of a sorted store. -/
theorem mapLookup_updateLastVal {V : Type} {l : List (BlockHeight × V)} {e : BlockHeight × V}
    (v : V) (hs : SortedKeys l) (h : l.getLast? = some e) (k : BlockHeight) :
    mapLookup (updateLastVal l v) k = if k = e.1 then some v else mapLookup l k := by
  obtain ⟨ke, ve⟩ := e
  have hdecomp : l.dropLast ++ [(ke, ve)] = l := List.dropLast_append_getLast? (ke, ve) h
  have hdrop : ∀ x ∈ l.dropLast, x.1 < ke := by
    have hsp := List.pairwise_append.mp (hdecomp ▸ hs)
    intro x hx
    simpa using hsp.2.2 x hx (ke, ve) (by simp)
  rw [updateLastVal_eq v h]
  by_cases hk : k = (ke, ve).1
  · simp only at hk
    subst hk
    have hnone : mapLookup l.dropLast k = none :=
      mapLookup_none_of_keys fun x hx => ne_of_lt (hdrop x hx)
    rw [mapLookup_append_of_none _ hnone]
    simp [mapLookup]
  · simp only at hk
    rw [if_neg hk]
    cases hl : mapLookup l.dropLast k with
    | some w =>
      rw [mapLookup_append_of_some _ hl, ← hdecomp, mapLookup_append_of_some _ hl]
    | none =>
      rw [mapLookup_append_of_none _ hl, ← hdecomp, mapLookup_append_of_none _ hl]
      simp [mapLookup, hk]

/-- `freshStep` only touches the tally and the chain store. -/
theorem freshStep_fields {T : Type} [DecidableEq T] {nd : Node T} {msg : Message T}
    {nd2 : Node T} (h : freshStep nd msg = some nd2) :
    nd2.epoch_num = nd.epoch_num ∧ nd2.node_id = nd.node_id ∧
    nd2.node_set_info = nd.node_set_info ∧ nd2.keypair = nd.keypair ∧
    nd2.proposal_recieved = nd.proposal_recieved := by
  unfold freshStep at h
  by_cases hq : hasQuorum (((mapLookup nd.votes msg.vote.get_data.hash).getD (0, [])).1 + 1)
      nd.node_set_info.num_nodes
  · rw [if_pos hq] at h
    obtain ⟨he, hi, hni, hk, _, hp⟩ := try_append_block_fields h
    exact ⟨he, hi, hni, hk, hp⟩
  · rw [if_neg hq] at h
    rw [← Option.some.inj h]
    exact ⟨rfl, rfl, rfl, rfl, rfl⟩

/-- For a node whose identity is within the registry, the recipient set of
`every_node_except_me` is exactly all participant identities minus its own. -/
theorem every_node_except_me_erase {T : Type} {nd : Node T}
    (hid : nd.node_id < nd.node_set_info.num_nodes) :
    nd.every_node_except_me = (Finset.range nd.node_set_info.num_nodes).erase nd.node_id := by
  ext x
  simp only [Node.every_node_except_me, Finset.mem_union, Finset.mem_range, Finset.mem_Ico,
    Finset.mem_erase]
  constructor
  · rintro (h | ⟨h1, h2⟩)
    · exact ⟨Nat.ne_of_lt h, lt_trans h hid⟩
    · exact ⟨(Nat.lt_of_succ_le h1).ne', h2⟩
  · rintro ⟨hne, hx⟩
    rcases Nat.lt_or_ge x nd.node_id with h | h
    · exact Or.inl h
    · exact Or.inr ⟨Nat.succ_le_of_lt (lt_of_le_of_ne h (Ne.symm hne)), hx⟩

/-! ## The specification claims -/

/-- C1, counterexample: the claim says an envelope whose voter identity is
out of range is discarded silently (empty output, unchanged state, no crash),
but `handle_message` panics on the registry lookup `unwrap`: on the concrete
out-of-range envelope `msgOut` it returns `none` (panic) rather than
`some (nd1, [])`. -/
theorem C1_cex :
    nd1.handle_message msgOut = none ∧ ¬ nd1.handle_message msgOut = some (nd1, []) := by
  decide

/-- C1, amended: an inbound envelope whose vote signature does not verify
under the claimed (in-range) voter's registered public key is discarded
silently — empty output and entirely unchanged state; but an envelope whose
voter identity is out of range of the membership registry makes the node
panic (modelled as `none`) instead of being discarded silently. -/
theorem C1_invalid_discard (T : Type) [DecidableEq T] (nd : Node T) (msg : Message T) :
    (nd.node_set_info.get_public_key msg.voter = none → nd.handle_message msg = none) ∧
    (∀ pk, nd.node_set_info.get_public_key msg.voter = some pk →
      msg.vote.verify pk = false → nd.handle_message msg = some (nd, [])) :=
  ⟨fun hpk => handle_message_unknown_voter hpk,
   fun _ hpk hver => handle_message_invalid_sig hpk hver⟩

/-- C1, witness: the amended claim applied to the concrete scenario — the
badly signed envelope `msgBad` is silently discarded, and the out-of-range
envelope `msgOut` panics. -/
theorem C1_invalid_discard_witness :
    nd1.handle_message msgBad = some (nd1, []) ∧ nd1.handle_message msgOut = none :=
  ⟨(C1_invalid_discard Nat nd1 msgBad).2 100 (by decide) (by decide),
   (C1_invalid_discard Nat nd1 msgOut).1 (by decide)⟩

/-- C2: for every (non-empty, as always constructed) chain `C` and block `B`,
`add_block` succeeds iff `B`'s parent hash equals the digest of `C`'s tip;
on success the height grows by one and the tip becomes `B`; on mismatch the
append fails (the reference behavior panics, modelled as `none`). -/
theorem C2_append (T : Type) [DecidableEq T] (C : BlockChain T) (B : Block T)
    (hne : C.blocks ≠ []) :
    ((C.add_block B).isSome ↔ B.prev_hash = C.get_latest_block_hash) ∧
    (∀ C', C.add_block B = some C' →
      C'.block_height = C.block_height + 1 ∧ C'.blocks.getLast? = some B) := by
  obtain ⟨tip, htip⟩ : ∃ tip, C.blocks.getLast? = some tip := by
    cases h : C.blocks.getLast? with
    | none => exact absurd (List.getLast?_eq_none_iff.mp h) hne
    | some tip => exact ⟨tip, rfl⟩
  have hlatest : C.get_latest_block_hash = some tip.hash := by
    simp [BlockChain.get_latest_block_hash, htip]
  cases hprev : B.prev_hash with
  | none =>
    constructor
    · simp [BlockChain.add_block, hprev, hlatest]
    · intro C' hC'
      simp [BlockChain.add_block, hprev] at hC'
  | some ph =>
    by_cases heq : ph = tip.hash
    · subst heq
      constructor
      · simp [BlockChain.add_block, hprev, hlatest]
      · intro C' hC'
        simp [BlockChain.add_block, hprev, hlatest] at hC'
        constructor
        · rw [← hC']
          simp [BlockChain.block_height]
        · rw [← hC']
          simp
    · constructor
      · simp [BlockChain.add_block, hprev, hlatest, heq]
      · intro C' hC'
        simp [BlockChain.add_block, hprev, hlatest, heq] at hC'

/-- C2, witness: appending `blkP` to the fresh genesis chain. -/
theorem C2_append_witness :
    ((BlockChain.new (T := Nat)).add_block blkP).isSome ↔
      blkP.prev_hash = (BlockChain.new (T := Nat)).get_latest_block_hash :=
  (C2_append Nat BlockChain.new blkP (by decide)).1

/-- C3: the quorum test gating block appending in `handle_message` holds iff
`count > 2n/3 + 1` in exact floor-division integer arithmetic; the boundary
values for `n ∈ {4, 5, 7, 10}` are as the spec demands. -/
theorem C3_quorum :
    (∀ count n : Nat, hasQuorum count n = true ↔ count > 2 * n / 3 + 1) ∧
    (hasQuorum 4 4 = true ∧ hasQuorum 3 4 = false) ∧
    (hasQuorum 5 5 = true ∧ hasQuorum 4 5 = false) ∧
    (hasQuorum 6 7 = true ∧ hasQuorum 5 7 = false) ∧
    (hasQuorum 8 10 = true ∧ hasQuorum 7 10 = false) :=
  ⟨fun _ _ => by simp [hasQuorum], by decide, by decide, by decide, by decide⟩

/-- C6: a second delivery of a vote for a (digest, voter) pair the tally
already contains is an idempotent no-op — the node state (tally included) is
left exactly as it was and no outbound messages are produced. -/
theorem C6_idempotent (T : Type) [DecidableEq T] (nd : Node T) (msg : Message T)
    (pk : PublicKey) (hpk : nd.node_set_info.get_public_key msg.voter = some pk)
    (hver : msg.vote.verify pk = true)
    (hdup : msg.voter ∈ ((mapLookup nd.votes msg.vote.get_data.hash).getD (0, [])).2) :
    nd.handle_message msg = some (nd, []) := by
  rw [handle_message_dup hpk hver hdup]
  cases hlk : mapLookup nd.votes msg.vote.get_data.hash with
  | none =>
    rw [hlk] at hdup
    simp at hdup
  | some p =>
    simp only [Option.getD_some, mapInsert_lookup_self hlk]

/-- C6, witness: node 1 re-receiving the proposal vote it has already
recorded. -/
theorem C6_idempotent_witness : nd1'.handle_message msgP = some (nd1', []) :=
  C6_idempotent Nat nd1' msgP 100 (by decide) (by decide) (by decide)

/-- C9: for every payload type, a freshly constructed chain has height
exactly 1 and consists of the genesis block, whose payload is none, whose
parent hash is none, and whose epoch is 0. -/
theorem C9_genesis (T : Type) :
    (BlockChain.new (T := T)).block_height = 1 ∧
    (BlockChain.new (T := T)).blocks = [Block.genesis_block] ∧
    (Block.genesis_block (T := T)).payload = none ∧
    (Block.genesis_block (T := T)).prev_hash = none ∧
    (Block.genesis_block (T := T)).epoch = 0 :=
  ⟨rfl, rfl, rfl, rfl, rfl⟩

/-- C4, counterexample: the claim quantifies over *every* envelope carrying a
validly signed vote, but a second delivery of the same validly signed vote
produces no envelopes at all — in the concrete scenario, node 1's first
handling of `msgP` emits the echo (and its own vote), while the second
handling of the very same validly signed envelope emits nothing. -/
theorem C4_echo_cex :
    (Signed.new blkP kpA).verify 100 = true ∧
    nd1.handle_message msgP = some (nd1', [echoP, voteP]) ∧
    nd1'.handle_message msgP = some (nd1', []) := by
  decide

/-- C4, amended: for every envelope carrying a validly signed vote that is
the *first* recorded for its (digest, voter) pair and whose handling
completes without panicking, the output starts with exactly one echo
envelope — the received vote attributed to the original voter, addressed to
every participant except the handling node — followed by nothing, or by the
handling node's own proposal vote alone. -/
theorem C4_echo (T : Type) [DecidableEq T] (nd nd' : Node T) (msg : Message T)
    (pk : PublicKey) (out : List (Message T))
    (hid : nd.node_id < nd.node_set_info.num_nodes)
    (hpk : nd.node_set_info.get_public_key msg.voter = some pk)
    (hver : msg.vote.verify pk = true)
    (hfresh : msg.voter ∉ ((mapLookup nd.votes msg.vote.get_data.hash).getD (0, [])).2)
    (hrun : nd.handle_message msg = some (nd', out)) :
    out = [⟨(Finset.range nd.node_set_info.num_nodes).erase nd.node_id, msg.vote, msg.voter⟩] ∨
    out = [⟨(Finset.range nd.node_set_info.num_nodes).erase nd.node_id, msg.vote, msg.voter⟩,
      ⟨(Finset.range nd.node_set_info.num_nodes).erase nd.node_id,
        Signed.new msg.vote.get_data nd.keypair, nd.node_id⟩] := by
  rw [handle_message_fresh hpk hver hfresh] at hrun
  cases hstep : freshStep nd msg with
  | none =>
    rw [hstep] at hrun
    exact Option.noConfusion hrun
  | some nd2 =>
    rw [hstep] at hrun
    simp only [] at hrun
    obtain ⟨he2, hi2, hni2, hk2, hp2⟩ := freshStep_fields hstep
    have hevery : nd2.every_node_except_me =
        (Finset.range nd.node_set_info.num_nodes).erase nd.node_id := by
      rw [every_node_except_me_congr hi2 hni2]
      exact every_node_except_me_erase hid
    cases hvalid : nd2.message_is_valid_proposal msg with
    | none =>
      rw [hvalid] at hrun
      exact Option.noConfusion hrun
    | some b =>
      cases b with
      | false =>
        rw [hvalid] at hrun
        obtain ⟨-, hout⟩ := Prod.mk.injEq .. ▸ Option.some.inj hrun
        left
        rw [← hout]
        simp [echoOf, hevery]
      | true =>
        rw [hvalid] at hrun
        obtain ⟨-, hout⟩ := Prod.mk.injEq .. ▸ Option.some.inj hrun
        right
        rw [← hout]
        simp [echoOf, selfVoteOf, hevery, hi2, hk2]

/-- C4, witness: the amended claim applied to node 1's first handling of the
leader's proposal. -/
theorem C4_echo_witness :
    ([echoP, voteP] : List (Message Nat)) =
      [⟨(Finset.range nd1.node_set_info.num_nodes).erase nd1.node_id, msgP.vote, msgP.voter⟩] ∨
    ([echoP, voteP] : List (Message Nat)) =
      [⟨(Finset.range nd1.node_set_info.num_nodes).erase nd1.node_id, msgP.vote, msgP.voter⟩,
        ⟨(Finset.range nd1.node_set_info.num_nodes).erase nd1.node_id,
          Signed.new msgP.vote.get_data nd1.keypair, nd1.node_id⟩] :=
  C4_echo Nat nd1 nd1' msgP 100 [echoP, voteP] (by decide) (by decide) (by decide) (by decide)
    (by decide)

/-- C5, counterexample: the claim says that *whenever* the proposal-validity
predicate holds, `handle_message` additionally emits the node's own vote
envelope; but on a second delivery of the valid proposal the predicate still
holds and `handle_message` emits nothing at all. -/
theorem C5_proposal_cex :
    nd1'.message_is_valid_proposal msgP = some true ∧
    nd1'.handle_message msgP = some (nd1', []) := by
  decide

/-- C5, amended: with the claimed voter's key registered, the
proposal-validity predicate holds iff the block's epoch equals the node's
current epoch, the voter is `leader(epoch) = 0`, and the signature verifies;
and whenever it holds and the vote is the *first* recorded for its (digest,
voter) pair, a completed `handle_message` emits, after the echo, a vote
envelope for the same block signed by the receiving node itself, addressed to
all other participants. -/
theorem C5_proposal (T : Type) [DecidableEq T] (nd nd' : Node T) (msg : Message T)
    (pk : PublicKey) (out : List (Message T))
    (hid : nd.node_id < nd.node_set_info.num_nodes)
    (hpk : nd.node_set_info.get_public_key msg.voter = some pk) :
    (nd.message_is_valid_proposal msg = some true ↔
      (msg.vote.get_data.epoch = nd.epoch_num ∧ msg.voter = nd.get_leader ∧
        msg.vote.verify pk = true)) ∧
    nd.get_leader = 0 ∧
    (nd.message_is_valid_proposal msg = some true →
      msg.voter ∉ ((mapLookup nd.votes msg.vote.get_data.hash).getD (0, [])).2 →
      nd.handle_message msg = some (nd', out) →
      out = [⟨(Finset.range nd.node_set_info.num_nodes).erase nd.node_id, msg.vote, msg.voter⟩,
        ⟨(Finset.range nd.node_set_info.num_nodes).erase nd.node_id,
          Signed.new msg.vote.get_data nd.keypair, nd.node_id⟩]) := by
  have hval_def : nd.validate_vote msg.voter msg.vote = some (msg.vote.verify pk) := by
    simp [Node.validate_vote, hpk]
  have hiff : nd.message_is_valid_proposal msg = some true ↔
      (msg.vote.get_data.epoch = nd.epoch_num ∧ msg.voter = nd.get_leader ∧
        msg.vote.verify pk = true) := by
    simp [Node.message_is_valid_proposal, hval_def, and_assoc]
  refine ⟨hiff, rfl, fun hvalid hfresh hrun => ?_⟩
  have hver : msg.vote.verify pk = true := (hiff.mp hvalid).2.2
  rw [handle_message_fresh hpk hver hfresh] at hrun
  cases hstep : freshStep nd msg with
  | none =>
    rw [hstep] at hrun
    exact Option.noConfusion hrun
  | some nd2 =>
    rw [hstep] at hrun
    simp only [] at hrun
    obtain ⟨he2, hi2, hni2, hk2, hp2⟩ := freshStep_fields hstep
    have hevery : nd2.every_node_except_me =
        (Finset.range nd.node_set_info.num_nodes).erase nd.node_id := by
      rw [every_node_except_me_congr hi2 hni2]
      exact every_node_except_me_erase hid
    have hvalid2 : nd2.message_is_valid_proposal msg = some true := by
      rw [message_is_valid_proposal_congr msg he2 hni2]
      exact hvalid
    rw [hvalid2] at hrun
    obtain ⟨-, hout⟩ := Prod.mk.injEq .. ▸ Option.some.inj hrun
    rw [← hout]
    simp [echoOf, selfVoteOf, hevery, hi2, hk2]

/-- C5, witness: the amended claim applied to node 1's first handling of the
proposal — the iff discharged and both envelopes emitted. -/
theorem C5_proposal_witness :
    ([echoP, voteP] : List (Message Nat)) =
      [⟨(Finset.range nd1.node_set_info.num_nodes).erase nd1.node_id, msgP.vote, msgP.voter⟩,
        ⟨(Finset.range nd1.node_set_info.num_nodes).erase nd1.node_id,
          Signed.new msgP.vote.get_data nd1.keypair, nd1.node_id⟩] :=
  (C5_proposal Nat nd1 nd1' msgP 100 [echoP, voteP] (by decide) (by decide)).2.2 (by decide)
    (by decide) (by decide)

/-- C7: after `try_append_block` runs on a well-formed store, either no fork
matched and the state is unchanged, or the single matching fork at the
greatest height was removed and extended: every other chain stored at any
height is still stored at its height, the extension is stored at the new
height, and the store gains nothing but the extension. -/
theorem C7_frame (T : Type) [DecidableEq T] (nd nd' : Node T) (b : Block T)
    (hinv : StoreInv nd.chains) (hrun : nd.try_append_block b = some nd') :
    nd' = nd ∨
    ∃ h₀ cs chain chain',
      nd.chains.getLast? = some (h₀, cs) ∧ chain ∈ cs ∧
      chain.add_block b = some chain' ∧ chain'.block_height = h₀ + 1 ∧
      storedAt nd'.chains (h₀ + 1) chain' ∧
      (∀ k c, storedAt nd.chains k c → (k = h₀ ∧ c = chain) ∨ storedAt nd'.chains k c) ∧
      (∀ k c, storedAt nd'.chains k c → (k = h₀ + 1 ∧ c = chain') ∨ storedAt nd.chains k c) := by
  rcases try_append_block_cases hrun with rfl | ⟨h₀, cs, i, chain, chain', hlast, hget, hadd, hnd'⟩
  · exact Or.inl rfl
  right
  obtain ⟨hsorted, hkeys, -⟩ := hinv
  have hmem_entry : (h₀, cs) ∈ nd.chains := getLast?_mem hlast
  have hkey := hkeys _ hmem_entry
  have hchain_mem : chain ∈ cs := mem_getElem? hget
  have hchain_h : chain.block_height = h₀ := hkey.2 chain hchain_mem
  have hblocks : chain'.blocks = chain.blocks ++ [b] := add_block_some hadd
  have hchain'_h : chain'.block_height = h₀ + 1 := by
    simp only [BlockChain.block_height] at hchain_h ⊢
    rw [hblocks, List.length_append, hchain_h]
    rfl
  have hmid_keys : ∀ x ∈ updateLastVal nd.chains (cs.eraseIdx i), x.1 ≤ h₀ := by
    intro x hx
    obtain ⟨y, hy, hxy⟩ := mem_updateLastVal hx
    rw [hxy]
    exact sortedKeys_le_last hsorted hlast y hy
  have hbt : btInsert (updateLastVal nd.chains (cs.eraseIdx i)) chain'.block_height [chain'] =
      updateLastVal nd.chains (cs.eraseIdx i) ++ [(chain'.block_height, [chain'])] := by
    apply btInsert_of_forall_lt
    intro e he
    rw [hchain'_h]
    exact Nat.lt_succ_of_le (hmid_keys e he)
  have hch : nd'.chains =
      updateLastVal nd.chains (cs.eraseIdx i) ++ [(h₀ + 1, [chain'])] := by
    rw [hnd']
    show btInsert (updateLastVal nd.chains (cs.eraseIdx i)) chain'.block_height [chain'] = _
    rw [hbt, hchain'_h]
  have hlkA : ∀ k, mapLookup (updateLastVal nd.chains (cs.eraseIdx i)) k =
      if k = h₀ then some (cs.eraseIdx i) else mapLookup nd.chains k := fun k =>
    mapLookup_updateLastVal _ hsorted hlast k
  have hnd_top : mapLookup nd.chains (h₀ + 1) = none :=
    mapLookup_none_of_keys fun x hx =>
      ne_of_lt (Nat.lt_succ_of_le (sortedKeys_le_last hsorted hlast x hx))
  have hlk' : ∀ k, mapLookup nd'.chains k =
      if k = h₀ + 1 then some [chain']
      else if k = h₀ then some (cs.eraseIdx i)
      else mapLookup nd.chains k := by
    intro k
    rw [hch]
    by_cases hk1 : k = h₀ + 1
    · subst hk1
      have hA : mapLookup (updateLastVal nd.chains (cs.eraseIdx i)) (h₀ + 1) = none := by
        rw [hlkA, if_neg (Nat.succ_ne_self h₀)]
        exact hnd_top
      rw [mapLookup_append_of_none _ hA]
      simp [mapLookup]
    · rw [if_neg hk1, ← hlkA k]
      cases hA : mapLookup (updateLastVal nd.chains (cs.eraseIdx i)) k with
      | some w => rw [mapLookup_append_of_some _ hA]
      | none =>
        rw [mapLookup_append_of_none _ hA]
        simp [mapLookup, hk1]
  have hlook_nd_h₀ : mapLookup nd.chains h₀ = some cs := sortedKeys_lookup_mem hsorted hmem_entry
  refine ⟨h₀, cs, chain, chain', hlast, hchain_mem, hadd, hchain'_h, ?_, ?_, ?_⟩
  · refine ⟨[chain'], ?_, by simp⟩
    rw [hlk']
    simp
  · intro k c hstored
    obtain ⟨csk, hcsk, hc⟩ := hstored
    by_cases hk0 : k = h₀
    · subst hk0
      have hcs : csk = cs := Option.some.inj (hcsk.symm.trans hlook_nd_h₀)
      rw [hcs] at hc
      rcases mem_eraseIdx_or_eq hget hc with hcm | hcm
      · right
        refine ⟨cs.eraseIdx i, ?_, hcm⟩
        rw [hlk', if_neg (Nat.ne_of_lt (Nat.lt_succ_self k)), if_pos rfl]
      · exact Or.inl ⟨rfl, hcm⟩
    · right
      have hk1 : ¬ k = h₀ + 1 := by
        intro hk1
        rw [hk1, hnd_top] at hcsk
        exact Option.noConfusion hcsk
      refine ⟨csk, ?_, hc⟩
      rw [hlk', if_neg hk1, if_neg hk0]
      exact hcsk
  · intro k c hstored
    obtain ⟨csk, hcsk, hc⟩ := hstored
    rw [hlk'] at hcsk
    by_cases hk1 : k = h₀ + 1
    · rw [if_pos hk1] at hcsk
      have hcs : csk = [chain'] := Option.some.inj hcsk.symm
      rw [hcs] at hc
      simp at hc
      exact Or.inl ⟨hk1, hc⟩
    · rw [if_neg hk1] at hcsk
      by_cases hk0 : k = h₀
      · rw [if_pos hk0] at hcsk
        right
        have hcs : csk = cs.eraseIdx i := Option.some.inj hcsk.symm
        refine ⟨cs, ?_, List.mem_of_mem_eraseIdx (hcs ▸ hc)⟩
        rw [hk0]
        exact hlook_nd_h₀
      · rw [if_neg hk0] at hcsk
        exact Or.inr ⟨csk, hcsk, hc⟩

/-- C7, witness: the frame property applied to node 1's store appending
`blkP` onto the genesis fork. -/
theorem C7_frame_witness :
    nd1app = nd1 ∨
    ∃ h₀ cs chain chain',
      nd1.chains.getLast? = some (h₀, cs) ∧ chain ∈ cs ∧
      chain.add_block blkP = some chain' ∧ chain'.block_height = h₀ + 1 ∧
      storedAt nd1app.chains (h₀ + 1) chain' ∧
      (∀ k c, storedAt nd1.chains k c → (k = h₀ ∧ c = chain) ∨ storedAt nd1app.chains k c) ∧
      (∀ k c, storedAt nd1app.chains k c →
        (k = h₀ + 1 ∧ c = chain') ∨ storedAt nd1.chains k c) :=
  C7_frame Nat nd1 nd1app blkP (by decide) (by decide)

/-- C8: in every reachable node state, for every block digest, the recorded
voter set is duplicate-free and the stored vote count equals its cardinality
(reachability closure makes this exactly the statement that construction and
every `advance_epoch` / `handle_message` call preserve the invariant). -/
theorem C8_tally_invariant (T : Type) [DecidableEq T] (nd : Node T) (h : Reachable nd) :
    ∀ digest count voters, mapLookup nd.votes digest = some (count, voters) →
      voters.Nodup ∧ count = voters.length :=
  fun digest count voters hlk => (reachable_nodeInv h).2.1 digest (count, voters) hlk

/-- C8, witness: the tally invariant evaluated at the reachable state of
node 1 after handling the proposal, at the digest of `blkP`. -/
theorem C8_tally_invariant_witness :
    ([0] : List NodeID).Nodup ∧ 1 = ([0] : List NodeID).length :=
  C8_tally_invariant Nat nd1'
    (@Reachable.of_handle Nat _ nd1 nd1' msgP [echoP, voteP]
      (@Reachable.of_new Nat _ 1 kpB info2 nd1 (by decide)) (by decide))
    blkP.hash 1 [0] (by decide)

/-- C10: in every reachable node state, the chain store has at least one
height entry, the fork set at the greatest height is non-empty, and
consequently `peek_longest_chain` — and therefore `propose`, which reads the
longest chain's tip — never fails. -/
theorem C10_longest (T : Type) [DecidableEq T] (nd : Node T) (h : Reachable nd) :
    (∃ h₀ cs, nd.chains.getLast? = some (h₀, cs) ∧ cs ≠ []) ∧
    (∃ c, nd.peek_longest_chain = some c) ∧
    ∀ payload, (nd.propose payload).isSome := by
  obtain ⟨⟨hsorted, hkeys, hlastne⟩, -, -⟩ := reachable_nodeInv h
  unfold lastNonempty at hlastne
  cases hlast : nd.chains.getLast? with
  | none =>
    rw [hlast] at hlastne
    simp at hlastne
  | some e =>
    obtain ⟨h₀, cs⟩ := e
    rw [hlast] at hlastne
    simp at hlastne
    obtain ⟨c, cs', rfl⟩ : ∃ c cs', cs = c :: cs' := by
      cases cs with
      | nil => simp at hlastne
      | cons c cs' => exact ⟨c, cs', rfl⟩
    have hpeek : nd.peek_longest_chain = some c := by
      simp [Node.peek_longest_chain, hlast]
    have hkey := hkeys (h₀, c :: cs') (getLast?_mem hlast)
    have hlen : c.blocks.length = h₀ := hkey.2 c (by simp)
    have hcne : c.blocks ≠ [] := by
      intro hnil
      rw [hnil] at hlen
      simp at hlen
      rw [← hlen] at hkey
      exact Nat.not_succ_le_zero 0 hkey.1
    obtain ⟨tip, htip⟩ : ∃ tip, c.blocks.getLast? = some tip := by
      cases hgl : c.blocks.getLast? with
      | none => exact absurd (List.getLast?_eq_none_iff.mp hgl) hcne
      | some tip => exact ⟨tip, rfl⟩
    refine ⟨⟨h₀, c :: cs', rfl, by simp⟩, ⟨c, hpeek⟩, fun payload => ?_⟩
    simp [Node.propose, hpeek, BlockChain.get_latest_block_hash, htip]

/-- C10, witness: the freshly constructed node 1 has a longest chain to
peek. -/
theorem C10_longest_witness : ∃ c, nd1.peek_longest_chain = some c :=
  (C10_longest Nat nd1 (@Reachable.of_new Nat _ 1 kpB info2 nd1 (by decide))).2.1


end Streamlet

